import Mathlib

/-!
# Verification of the count-min-sketch library

Shallow embedding of `src/lib.rs` (the `cms_define!` macro body, expanded for an
arbitrary counter width).  Conventions used throughout:

* `usize`/`u64` values are `Nat`; wrapping arithmetic is written with explicit
  `% U64`, exactly where the source uses `wrapping_add`/`wrapping_mul`.
* The counter type `$Counter` is abstracted by its maximum value `cmax`
  (255, 65535, ... for the four generated variants); `saturating_add` becomes
  `satAdd`.
* The two SipHasher13 states are opaque: a hasher is represented by its pair of
  random 64-bit keys, and a key of the sketch is represented by the pair of
  64-bit hash values `(h0, h1)` that the two hashers produce for it (the values
  the source caches in `hashes`).  Hashing itself is external pseudo-random
  code and is not modelled; everything downstream of the two `finish()` values
  is modelled exactly.
* The floating-point parts of `optimal_width` / `optimal_k_num` (f64 division,
  `round`, `ln`, and the `as usize` casts) are abstracted by their resulting
  natural numbers `r = (2.0 / e).round() as usize` and
  `kf = ((1.0 - probability).ln() / 0.5f64.ln()) as usize`; everything after
  the casts is modelled exactly.
* `Vec<T>` is `List T`, in-place element assignment is `List.set`, reads are
  `List.getD` (indices are always in bounds in reachable states, cf. `WF`).
* A Rust `Result` together with the possibility of a `panic!`/`expect`/`assert`
  abort is modelled by the three-valued `RunResult`.
-/

namespace CMSketch

/-- `2^64`, the wrap-around modulus of `u64`/`usize` arithmetic. -/
def U64 : Nat := 18446744073709551616

/-- The constant `0xffffffffffffffc5 = 2^64 - 59` from `offset`. -/
def LARGE_PRIME : Nat := 18446744073709551557

/-- The two cached 64-bit hash values of a key: `hashes[0]` and `hashes[1]`
in `add`/`estimate` after the first two `offset` calls filled them. -/
structure HashPair where
  h0 : Nat
  h1 : Nat
deriving DecidableEq, Repr

/-- The random keys of the two `SipHasher13` hashers (`k0`,`k1` each). -/
def Hashers : Type := (Nat × Nat) × (Nat × Nat)

instance : DecidableEq Hashers := by unfold Hashers; infer_instance

/-- The sketch state (`struct $CountMinSketch`), for one counter width.
`cmax` is the maximum value of the counter type `$Counter`. -/
structure Sketch where
  counters : List (List Nat)
  offsets : List Nat
  hashers : Hashers
  mask : Nat
  k_num : Nat
  reset_idx : Nat
  cmax : Nat
deriving DecidableEq

/-- Read `self.counters[i][j]` (in-bounds in all reachable uses). -/
def getCell (s : Sketch) (i j : Nat) : Nat :=
  (s.counters.getD i []).getD j 0

/-- `$Counter::saturating_add` on counters bounded by `cmax`. -/
def satAdd (cmax a v : Nat) : Nat := min (a + v) cmax

/-- `Iterator::min` over a list of counter values. -/
def iterMin : List Nat → Option Nat
  | [] => none
  | x :: xs =>
    match iterMin xs with
    | none => some x
    | some m => some (min x m)

/-- `fn offset(&self, hashes, key, k_i)`.  For `k_i < 2` the source hashes the
key with hasher `k_i` and returns `hash as usize & self.mask`; the hash value
is exactly `hashes[k_i]` of the pair `h`, which this embedding takes directly.
For `k_i ≥ 2` the source computes
`hashes[0].wrapping_add((k_i as u64).wrapping_mul(hashes[1]) % 0xffffffffffffffc5) as usize & self.mask`. -/
def offset (m : Nat) (h : HashPair) (k_i : Nat) : Nat :=
  if k_i < 2 then
    (if k_i = 0 then h.h0 else h.h1) &&& m
  else
    ((h.h0 + (k_i * h.h1) % U64 % LARGE_PRIME) % U64) &&& m

/-- The column-index formula exactly as claim C2 states it: the modulus
`LARGE_PRIME` applied to the full sum `h0 + k_i * h1`. -/
def offsetClaimC2 (m : Nat) (h : HashPair) (k_i : Nat) : Nat :=
  ((h.h0 + k_i * h.h1) % LARGE_PRIME) &&& m

/-- The value `lowest` computed by the first pass of `add`, and the value
returned by `estimate`: the minimum of the key's `k_num` counters.
(`.getD 0` stands for `.unwrap()`, total because `k_num ≥ 1` in every
constructed sketch.) -/
def lowestOf (s : Sketch) (h : HashPair) : Nat :=
  (iterMin ((List.range s.k_num).map
    (fun k_i => getCell s k_i (offset s.mask h k_i)))).getD 0

/-- `pub fn estimate(&self, key)`: recompute the `k_num` offsets and return the
minimum counter value over them.  Takes `&self`: the embedding returns only a
value and no state, reflecting that the call mutates nothing. -/
def estimate (s : Sketch) (h : HashPair) : Nat :=
  (iterMin ((List.range s.k_num).map
    (fun k_i => getCell s k_i (offset s.mask h k_i)))).getD 0

/-- `pub fn add(&mut self, key, value)`.  First pass: for each row compute the
offset, store it into `self.offsets[k_i]`, read the counter, take the minimum
`lowest`.  Second pass: for each row, re-read the stored offset, and if the
counter there currently equals `lowest`, replace it by its saturating sum with
`value`. -/
def add (s : Sketch) (h : HashPair) (v : Nat) : Sketch :=
  let offs := (List.range s.k_num).foldl
    (fun os k_i => os.set k_i (offset s.mask h k_i)) s.offsets
  let lowest := lowestOf s h
  let counters := (List.range s.k_num).foldl
    (fun cs k_i =>
      let off := offs.getD k_i 0
      let c := (cs.getD k_i []).getD off 0
      if c = lowest then
        cs.set k_i ((cs.getD k_i []).set off (satAdd s.cmax c v))
      else cs)
    s.counters
  { s with counters := counters, offsets := offs }

/-- `pub fn increment(&mut self, key) { self.add(key, 1) }`. -/
def increment (s : Sketch) (h : HashPair) : Sketch := add s h 1

/-- `pub fn reset(&mut self)`: `self.counters[k_i][j] /= 2` for every row
`k_i in 0..k_num` and every column, then `self.reset_idx = 0`. -/
def reset (s : Sketch) : Sketch :=
  { s with
    counters := (List.range s.k_num).foldl
      (fun cs k_i => cs.set k_i ((cs.getD k_i []).map (fun c => c / 2))) s.counters,
    reset_idx := 0 }

/-- `pub fn reset_next(&mut self) -> Option<usize>`: halve column `reset_idx`
in every row, advance the cursor by `idx.wrapping_add(1) & self.mask`, return
`Some(next)` unless the cursor wrapped to `0`. -/
def reset_next (s : Sketch) : Sketch × Option Nat :=
  let idx := s.reset_idx
  let counters := (List.range s.k_num).foldl
    (fun cs k_i => cs.set k_i ((cs.getD k_i []).set idx ((cs.getD k_i []).getD idx 0 / 2)))
    s.counters
  let next := ((idx + 1) % U64) &&& s.mask
  ({ s with counters := counters, reset_idx := next },
   if next ≠ 0 then some next else none)

/-- Result of running a Rust function that may return `Ok`, return `Err`, or
abort the process (`expect` / failed `assert!`). -/
inductive RunResult (α : Type) where
  | ok : α → RunResult α
  | err : String → RunResult α
  | panicked : String → RunResult α
deriving DecidableEq

/-- Whether a `RunResult` is the `Err` variant. -/
def RunResult.isErr {α : Type} : RunResult α → Bool
  | .err _ => true
  | _ => false

/-- Whether a `RunResult` is the `Ok` variant. -/
def RunResult.isOk {α : Type} : RunResult α → Bool
  | .ok _ => true
  | _ => false

/-- Fuelled doubling loop: the smallest `power * 2^i` (with `i ≤ fuel`) that
is `≥ n`, starting from `power`. -/
def nextPow2Go (n : Nat) : Nat → Nat → Nat
  | 0, power => power
  | fuel + 1, power => if n ≤ power then power else nextPow2Go n fuel (power * 2)

/-- `u64::next_power_of_two` (usize is 64-bit): the smallest power of two
`≥ n` (and `1` for `n = 0`); 64 doublings from 1 suffice for every `n ≤ 2^64`. -/
def nextPowerOfTwo (n : Nat) : Nat := nextPow2Go n 64 1

/-- `usize::checked_next_power_of_two` on a 64-bit platform: `None` exactly
when the next power of two would exceed `usize::MAX`, i.e. when `n > 2^63`. -/
def checkedNextPowerOfTwo (n : Nat) : Option Nat :=
  if n ≤ 2 ^ 63 then some (nextPowerOfTwo n) else none

/-- `fn optimal_width(capacity, tolerance)` after the float prelude:
`r` stands for `(2.0 / (tolerance / capacity as f64)).round() as usize`.
The source takes `max(2, width).checked_next_power_of_two()` and `.expect`s;
here the possible abort is propagated as `Option` and turned into
`RunResult.panicked` by the callers, exactly like `?`-free Rust panics. -/
def optimal_width (r : Nat) : Option Nat :=
  checkedNextPowerOfTwo (max 2 r)

/-- `fn optimal_k_num(probability)` after the float prelude: `kf` stands for
`((1.0 - probability).ln() / 0.5f64.ln()) as usize`; the source returns
`max(1, kf)`. -/
def optimal_k_num (kf : Nat) : Nat := max 1 kf

/-- `fn mask(width)`: `assert!(width > 1)`, `assert_eq!(width & (width - 1), 0)`
(panic on failure), then `width - 1`. -/
def mask (width : Nat) : RunResult Nat :=
  if 1 < width ∧ width &&& (width - 1) = 0 then .ok (width - 1)
  else .panicked "assertion failed"

/-- `pub fn new(capacity, probability, tolerance) -> Result<Self, &str>`,
with the float casts abstracted as `r`, `kf` (see `optimal_width`,
`optimal_k_num`) and the freshly drawn random hasher keys passed in as `hk`.
A `None` from the width computation is the `expect("Width would be way too
large")` abort; the function otherwise always returns `Ok`. -/
def new (cmax r kf : Nat) (hk : Hashers) : RunResult Sketch :=
  match optimal_width r with
  | none => .panicked "Width would be way too large"
  | some width =>
    let k_num := optimal_k_num kf
    match mask width with
    | .ok m =>
      .ok { counters := List.replicate k_num (List.replicate width 0)
            offsets := List.replicate k_num 0
            hashers := hk
            mask := m
            k_num := k_num
            reset_idx := 0
            cmax := cmax }
    | .err e => .err e
    | .panicked e => .panicked e

/-- `pub fn estimate_memory(capacity, probability, tolerance)`:
`width * mem::size_of::<$Counter>() * k_num`, where `size` abstracts
`mem::size_of::<$Counter>()`. -/
def estimate_memory (size r kf : Nat) : RunResult Nat :=
  match optimal_width r with
  | none => .panicked "Width would be way too large"
  | some width => .ok (width * size * optimal_k_num kf)

/-- One public mutating operation of the API. -/
inductive Op where
  | add : HashPair → Nat → Op
  | increment : HashPair → Op
  | reset : Op
  | resetNext : Op
deriving DecidableEq

/-- Apply one operation to the state. -/
def applyOp (s : Sketch) : Op → Sketch
  | .add h v => add s h v
  | .increment h => increment s h
  | .reset => reset s
  | .resetNext => (reset_next s).1

/-- Run a sequence of operations. -/
def runOps (s : Sketch) : List Op → Sketch
  | [] => s
  | op :: rest => runOps (applyOp s op) rest

/-- Run a sequence of `add` calls (key's hash pair, amount). -/
def runAdds (s : Sketch) : List (HashPair × Nat) → Sketch
  | [] => s
  | op :: rest => runAdds (add s op.1 op.2) rest

/-- Whether the `add s h v` call saturates some counter: some row's counter at
the key's offset is at the minimum (hence updated) and its saturating add
clamps. -/
def stepSat (s : Sketch) (h : HashPair) (v : Nat) : Bool :=
  (List.range s.k_num).any (fun k_i =>
    let c := getCell s k_i (offset s.mask h k_i)
    c = lowestOf s h && s.cmax < c + v)

/-- No counter saturates anywhere along a run of `add` calls. -/
def runNoSat (s : Sketch) : List (HashPair × Nat) → Bool
  | [] => true
  | (h, v) :: rest => !stepSat s h v && runNoSat (add s h v) rest

/-- The number of single-unit increments of key `key` in a sequence of `add`
calls: entries `(key, 1)`. -/
def countUnit (key : HashPair) (ops : List (HashPair × Nat)) : Nat :=
  ops.countP (fun op => decide (op.1 = key ∧ op.2 = 1))

/-- The state after one `reset_next` call (first component of the pair). -/
def resetNextState (s : Sketch) : Sketch := (reset_next s).1

/-- Concrete hasher keys used by the witness instances. -/
def hkW : Hashers := ((1, 2), (3, 4))

/-- A concrete well-formed mid-life sketch state used by witness instances:
width 4 (mask 3), 2 rows, 8-bit counters, decay cursor at column 1. -/
def sW : Sketch :=
  { counters := [[0, 1, 2, 3], [4, 5, 6, 7]]
    offsets := [0, 0]
    hashers := hkW
    mask := 3
    k_num := 2
    reset_idx := 1
    cmax := 255 }

/-- A concrete key (hash pair) for the witness instances: offsets 2 and 3
in `sW`. -/
def hW : HashPair := ⟨6, 3⟩

/-- A second concrete key for the witness instances. -/
def hW2 : HashPair := ⟨1, 0⟩

/-- The sketch produced by `new 255 3 2 hkW`: width 4, 2 rows. -/
def s0W : Sketch :=
  { counters := List.replicate 2 (List.replicate 4 0)
    offsets := List.replicate 2 0
    hashers := hkW
    mask := 3
    k_num := 2
    reset_idx := 0
    cmax := 255 }

/-- The sketch produced by `new 255 20 4 hkW`: the 8-bit variant sized for
capacity 100, probability 0.95, tolerance 10.0 (rounded width input 20,
`k_num` input 4), i.e. width 32, 4 rows, `cmax = 255`. -/
def s8W : Sketch :=
  { counters := List.replicate 4 (List.replicate 32 0)
    offsets := List.replicate 4 0
    hashers := hkW
    mask := 31
    k_num := 4
    reset_idx := 0
    cmax := 255 }

/-- A concrete run of `add` calls for the witness of the lower-bound claim:
two single-unit increments of `hW` and one 5-unit add of `hW2`. -/
def opsC1 : List (HashPair × Nat) := [(hW, 1), (hW2, 5), (hW, 1)]

/-- Well-formedness of a sketch state: what construction establishes and every
operation preserves. -/
structure WF (s : Sketch) : Prop where
  pow : ∃ t, s.mask + 1 = 2 ^ t
  width_ge : 2 ≤ s.mask + 1
  width_le : s.mask + 1 ≤ 2 ^ 63
  knum_ge : 1 ≤ s.k_num
  counters_len : s.counters.length = s.k_num
  rows_len : ∀ row ∈ s.counters, row.length = s.mask + 1
  offsets_len : s.offsets.length = s.k_num
  idx_lt : s.reset_idx < s.mask + 1
  cells_le : ∀ row ∈ s.counters, ∀ c ∈ row, c ≤ s.cmax

/-! ## List helper lemmas -/

theorem getD_set_self {α : Type} (d v : α) :
    ∀ (l : List α) (i : Nat), i < l.length → (l.set i v).getD i d = v := by
  intro l
  induction l with
  | nil => intro i hi; simp at hi
  | cons x xs ih =>
    intro i hi
    cases i with
    | zero => simp
    | succ i =>
      simp only [List.set_cons_succ, List.getD_cons_succ]
      exact ih i (by simpa using hi)

theorem getD_set_ne {α : Type} (d v : α) :
    ∀ (l : List α) (i j : Nat), j ≠ i → (l.set i v).getD j d = l.getD j d := by
  intro l
  induction l with
  | nil => intro i j _; simp
  | cons x xs ih =>
    intro i j hj
    cases i with
    | zero =>
      cases j with
      | zero => exact absurd rfl hj
      | succ j => simp
    | succ i =>
      cases j with
      | zero => simp
      | succ j =>
        simp only [List.set_cons_succ, List.getD_cons_succ]
        exact ih i j (fun hc => hj (by simp [hc]))

theorem getD_oob {α : Type} (d : α) :
    ∀ (l : List α) (j : Nat), l.length ≤ j → l.getD j d = d := by
  intro l
  induction l with
  | nil => intro j _; simp
  | cons x xs ih =>
    intro j hj
    cases j with
    | zero => simp at hj
    | succ j =>
      simp only [List.getD_cons_succ]
      exact ih j (by simpa using hj)

theorem getD_mem {α : Type} (d : α) :
    ∀ (l : List α) (i : Nat), i < l.length → l.getD i d ∈ l := by
  intro l
  induction l with
  | nil => intro i hi; simp at hi
  | cons x xs ih =>
    intro i hi
    cases i with
    | zero => simp
    | succ i =>
      simp only [List.getD_cons_succ]
      exact List.mem_cons_of_mem x (ih i (by simpa using hi))

theorem ext_of_getD {α : Type} (d : α) :
    ∀ (l1 l2 : List α), l1.length = l2.length →
      (∀ j, l1.getD j d = l2.getD j d) → l1 = l2 := by
  intro l1
  induction l1 with
  | nil =>
    intro l2 hl _
    cases l2 with
    | nil => rfl
    | cons y ys => simp at hl
  | cons x xs ih =>
    intro l2 hl h
    cases l2 with
    | nil => simp at hl
    | cons y ys =>
      have hx : x = y := by simpa using h 0
      have ht : xs = ys := ih ys (by simpa using hl) (fun j => by simpa using h (j + 1))
      rw [hx, ht]

theorem getD_map_half :
    ∀ (l : List Nat) (j : Nat), (l.map (fun c => c / 2)).getD j 0 = l.getD j 0 / 2 := by
  intro l
  induction l with
  | nil => intro j; simp
  | cons x xs ih =>
    intro j
    cases j with
    | zero => simp
    | succ j => simpa using ih j

theorem getD_map_rows (f : List Nat → List Nat) (hf : f [] = []) :
    ∀ (cs : List (List Nat)) (j : Nat), (cs.map f).getD j [] = f (cs.getD j []) := by
  intro cs
  induction cs with
  | nil => intro j; simp [hf]
  | cons r rs ih =>
    intro j
    cases j with
    | zero => simp
    | succ j => simpa using ih j

theorem getD_replicate {α : Type} (d x : α) :
    ∀ (n j : Nat), (List.replicate n x).getD j d = if j < n then x else d := by
  intro n
  induction n with
  | zero => intro j; simp
  | succ n ih =>
    intro j
    cases j with
    | zero => simp
    | succ j =>
      simp only [List.replicate_succ, List.getD_cons_succ, ih j]
      by_cases hj : j < n <;> simp [hj, Nat.succ_lt_succ_iff]

/-! ## Folds over `List.range`, modelling the source's `for k_i in 0..k_num` loops -/

theorem foldl_step_length {α : Type} (step : List α → Nat → List α)
    (hlen : ∀ l i, (step l i).length = l.length) :
    ∀ (ms : List Nat) (l : List α), (ms.foldl step l).length = l.length := by
  intro ms
  induction ms with
  | nil => intro l; rfl
  | cons m ms ih => intro l; rw [List.foldl_cons, ih, hlen]

theorem foldl_range_getD {α : Type} (d : α) (F : Nat → α → α) (step : List α → Nat → List α)
    (hlen : ∀ l i, (step l i).length = l.length)
    (hoth : ∀ l i j, j ≠ i → (step l i).getD j d = l.getD j d)
    (hself : ∀ l i, i < l.length → (step l i).getD i d = F i (l.getD i d)) :
    ∀ (n : Nat) (l : List α), n ≤ l.length → ∀ j,
      ((List.range n).foldl step l).getD j d =
        if j < n then F j (l.getD j d) else l.getD j d := by
  intro n
  induction n with
  | zero => intro l _ j; simp
  | succ n ih =>
    intro l hn j
    have hn' : n ≤ l.length := Nat.le_of_succ_le hn
    have hL : ((List.range n).foldl step l).length = l.length := foldl_step_length step hlen _ l
    rw [List.range_succ, List.foldl_append, List.foldl_cons, List.foldl_nil]
    by_cases hj : j = n
    · subst hj
      rw [hself _ j (by omega), ih l hn' j, if_neg (by omega), if_pos (by omega)]
    · rw [hoth _ _ _ hj, ih l hn' j]
      by_cases hlt : j < n
      · rw [if_pos hlt, if_pos (by omega)]
      · rw [if_neg hlt, if_neg (by omega)]

/-! ## `iterMin` lemmas -/

theorem iterMin_isSome : ∀ (l : List Nat), l ≠ [] → (iterMin l).isSome = true := by
  intro l hl
  cases l with
  | nil => exact absurd rfl hl
  | cons x xs =>
    unfold iterMin
    cases iterMin xs <;> simp

theorem iterMin_none : ∀ (l : List Nat), iterMin l = none → l = [] := by
  intro l h
  cases l with
  | nil => rfl
  | cons y ys =>
    unfold iterMin at h
    cases hys : iterMin ys <;> rw [hys] at h <;> simp at h

theorem iterMin_le : ∀ (l : List Nat) (m : Nat), iterMin l = some m → ∀ x ∈ l, m ≤ x := by
  intro l
  induction l with
  | nil => intro m hm; simp [iterMin] at hm
  | cons y ys ih =>
    intro m hm x hx
    unfold iterMin at hm
    rcases List.mem_cons.mp hx with hxy | hxs
    · subst hxy
      cases h : iterMin ys with
      | none => rw [h] at hm; simp at hm; omega
      | some m' => rw [h] at hm; simp at hm; omega
    · cases h : iterMin ys with
      | none =>
        rw [iterMin_none ys h] at hxs
        simp at hxs
      | some m' =>
        have := ih m' h x hxs
        rw [h] at hm; simp at hm
        omega

theorem iterMin_mem : ∀ (l : List Nat) (m : Nat), iterMin l = some m → m ∈ l := by
  intro l
  induction l with
  | nil => intro m hm; simp [iterMin] at hm
  | cons y ys ih =>
    intro m hm
    unfold iterMin at hm
    cases h : iterMin ys with
    | none =>
      rw [h] at hm; simp at hm
      simp [← hm]
    | some m' =>
      rw [h] at hm
      simp at hm
      rcases Nat.le_total y m' with hle | hle
      · have hy : m = y := by omega
        simp [hy]
      · have hm' : m = m' := by omega
        exact hm' ▸ List.mem_cons_of_mem y (ih m' h)

/-! ## `lowestOf` / `estimate` lemmas -/

theorem estimate_eq_lowestOf (s : Sketch) (h : HashPair) : estimate s h = lowestOf s h := rfl

theorem lowestOf_some (s : Sketch) (h : HashPair) (hk : 0 < s.k_num) :
    iterMin ((List.range s.k_num).map
      (fun k_i => getCell s k_i (offset s.mask h k_i))) = some (lowestOf s h) := by
  have hne : (List.range s.k_num).map
      (fun k_i => getCell s k_i (offset s.mask h k_i)) ≠ [] := by
    simp [List.range_eq_nil]
    omega
  have := iterMin_isSome _ hne
  cases hm : iterMin ((List.range s.k_num).map
      (fun k_i => getCell s k_i (offset s.mask h k_i))) with
  | none => rw [hm] at this; simp at this
  | some m => unfold lowestOf; rw [hm]; simp

theorem lowestOf_le_cell (s : Sketch) (h : HashPair) (hk : 0 < s.k_num)
    (i : Nat) (hi : i < s.k_num) :
    lowestOf s h ≤ getCell s i (offset s.mask h i) := by
  apply iterMin_le _ _ (lowestOf_some s h hk)
  exact List.mem_map.mpr ⟨i, List.mem_range.mpr hi, rfl⟩

theorem lowestOf_attained (s : Sketch) (h : HashPair) (hk : 0 < s.k_num) :
    ∃ i, i < s.k_num ∧ lowestOf s h = getCell s i (offset s.mask h i) := by
  have := iterMin_mem _ _ (lowestOf_some s h hk)
  rcases List.mem_map.mp this with ⟨i, hi, hval⟩
  exact ⟨i, List.mem_range.mp hi, hval.symm⟩

theorem le_lowestOf (s : Sketch) (h : HashPair) (hk : 0 < s.k_num) (b : Nat)
    (hb : ∀ i, i < s.k_num → b ≤ getCell s i (offset s.mask h i)) :
    b ≤ lowestOf s h := by
  rcases lowestOf_attained s h hk with ⟨i, hi, hval⟩
  rw [hval]
  exact hb i hi

/-! ## `offset` bounds -/

theorem offset_le_mask (m : Nat) (h : HashPair) (k_i : Nat) : offset m h k_i ≤ m := by
  unfold offset
  split <;> [skip; skip] <;> exact Nat.and_le_right

/-! ## Field projections (record updates do not touch the other fields) -/

theorem add_mask (s : Sketch) (h : HashPair) (v : Nat) : (add s h v).mask = s.mask := rfl

theorem add_k_num (s : Sketch) (h : HashPair) (v : Nat) : (add s h v).k_num = s.k_num := rfl

theorem add_cmax (s : Sketch) (h : HashPair) (v : Nat) : (add s h v).cmax = s.cmax := rfl

theorem add_hashers (s : Sketch) (h : HashPair) (v : Nat) : (add s h v).hashers = s.hashers := rfl

theorem add_reset_idx (s : Sketch) (h : HashPair) (v : Nat) :
    (add s h v).reset_idx = s.reset_idx := rfl

theorem reset_mask (s : Sketch) : (reset s).mask = s.mask := rfl

theorem reset_k_num (s : Sketch) : (reset s).k_num = s.k_num := rfl

theorem reset_cmax (s : Sketch) : (reset s).cmax = s.cmax := rfl

theorem reset_hashers (s : Sketch) : (reset s).hashers = s.hashers := rfl

theorem reset_offsets (s : Sketch) : (reset s).offsets = s.offsets := rfl

theorem reset_reset_idx (s : Sketch) : (reset s).reset_idx = 0 := rfl

theorem resetNextState_mask (s : Sketch) : (resetNextState s).mask = s.mask := rfl

theorem resetNextState_k_num (s : Sketch) : (resetNextState s).k_num = s.k_num := rfl

theorem resetNextState_cmax (s : Sketch) : (resetNextState s).cmax = s.cmax := rfl

theorem resetNextState_hashers (s : Sketch) : (resetNextState s).hashers = s.hashers := rfl

theorem resetNextState_offsets (s : Sketch) : (resetNextState s).offsets = s.offsets := rfl

/-! ## Characterization of `add` -/

theorem add_offsets_length (s : Sketch) (h : HashPair) (v : Nat) :
    (add s h v).offsets.length = s.offsets.length := by
  unfold add
  exact foldl_step_length _ (fun l i => List.length_set l i _) _ _

theorem add_counters_length (s : Sketch) (h : HashPair) (v : Nat) :
    (add s h v).counters.length = s.counters.length := by
  unfold add
  apply foldl_step_length
  intro l i
  dsimp only
  split <;> simp

theorem add_offsets_getD (s : Sketch) (h : HashPair) (v : Nat)
    (hO : s.k_num ≤ s.offsets.length) (j : Nat) :
    (add s h v).offsets.getD j 0 =
      if j < s.k_num then offset s.mask h j else s.offsets.getD j 0 := by
  unfold add
  exact foldl_range_getD 0 (fun i _ => offset s.mask h i)
    (fun os k_i => os.set k_i (offset s.mask h k_i))
    (fun l i => List.length_set l i _)
    (fun l i j hj => getD_set_ne 0 _ l i j hj)
    (fun l i hi => getD_set_self 0 _ l i hi)
    s.k_num s.offsets hO j

theorem add_row_getD (s : Sketch) (h : HashPair) (v : Nat)
    (hC : s.k_num ≤ s.counters.length) (hO : s.k_num ≤ s.offsets.length) (j : Nat) :
    (add s h v).counters.getD j [] =
      if j < s.k_num then
        (fun row =>
          if row.getD (offset s.mask h j) 0 = lowestOf s h then
            row.set (offset s.mask h j)
              (satAdd s.cmax (row.getD (offset s.mask h j) 0) v)
          else row) (s.counters.getD j [])
      else s.counters.getD j [] := by
  have hoffs : ∀ k, k < s.k_num →
      ((List.range s.k_num).foldl
        (fun os k_i => os.set k_i (offset s.mask h k_i)) s.offsets).getD k 0 =
        offset s.mask h k := by
    intro k hk
    have := add_offsets_getD s h v hO k
    unfold add at this
    simpa [hk] using this
  unfold add
  dsimp only
  have hmain := foldl_range_getD ([] : List Nat)
    (fun i row =>
      let off := ((List.range s.k_num).foldl
        (fun os k_i => os.set k_i (offset s.mask h k_i)) s.offsets).getD i 0
      if row.getD off 0 = lowestOf s h then
        row.set off (satAdd s.cmax (row.getD off 0) v)
      else row)
    (fun cs k_i =>
      let off := ((List.range s.k_num).foldl
        (fun os k_i => os.set k_i (offset s.mask h k_i)) s.offsets).getD k_i 0
      let c := (cs.getD k_i []).getD off 0
      if c = lowestOf s h then
        cs.set k_i ((cs.getD k_i []).set off (satAdd s.cmax c v))
      else cs)
    (by intro l i; dsimp only; split <;> simp)
    (by
      intro l i j hj
      dsimp only
      split
      · exact getD_set_ne [] _ l i j hj
      · rfl)
    (by
      intro l i hi
      dsimp only
      split
      · exact getD_set_self [] _ l i hi
      · rfl)
    s.k_num s.counters hC j
  rw [hmain]
  by_cases hj : j < s.k_num
  · rw [if_pos hj, if_pos hj]
    dsimp only
    rw [hoffs j hj]
  · rw [if_neg hj, if_neg hj]

theorem add_getCell (s : Sketch) (h : HashPair) (v : Nat) (hwf : WF s) (i j : Nat) :
    getCell (add s h v) i j =
      if i < s.k_num ∧ j = offset s.mask h i ∧ getCell s i j = lowestOf s h then
        satAdd s.cmax (getCell s i j) v
      else getCell s i j := by
  have hC : s.k_num ≤ s.counters.length := le_of_eq hwf.counters_len.symm
  have hO : s.k_num ≤ s.offsets.length := le_of_eq hwf.offsets_len.symm
  unfold getCell
  rw [add_row_getD s h v hC hO i]
  by_cases hi : i < s.k_num
  · rw [if_pos hi]
    dsimp only
    have hrowmem : s.counters.getD i [] ∈ s.counters :=
      getD_mem [] s.counters i (by omega)
    have hrowlen : (s.counters.getD i []).length = s.mask + 1 :=
      hwf.rows_len _ hrowmem
    have hofflt : offset s.mask h i < (s.counters.getD i []).length := by
      rw [hrowlen]
      exact Nat.lt_succ_of_le (offset_le_mask s.mask h i)
    by_cases hcond : (s.counters.getD i []).getD (offset s.mask h i) 0 = lowestOf s h
    · rw [if_pos hcond]
      by_cases hj : j = offset s.mask h i
      · subst hj
        rw [getD_set_self 0 _ _ _ hofflt, if_pos ⟨hi, rfl, hcond⟩]
      · rw [getD_set_ne 0 _ _ _ _ hj, if_neg (by tauto)]
    · rw [if_neg hcond]
      by_cases hj : j = offset s.mask h i
      · subst hj
        rw [if_neg (by tauto)]
      · rw [if_neg (by tauto)]
  · rw [if_neg hi, if_neg (by tauto)]

/-! ## Bridges between the membership and the `getD` view of the matrix -/

theorem getD_lt {α : Type} (d : α) (l : List α) (i : Nat) (hi : i < l.length) :
    l.getD i d = l[i] := by
  rw [List.getD_eq_getElem?_getD, List.getElem?_eq_getElem hi]
  rfl

theorem mem_getD {α : Type} (d : α) (l : List α) (x : α) (hx : x ∈ l) :
    ∃ i, i < l.length ∧ l.getD i d = x := by
  rcases List.mem_iff_getElem.mp hx with ⟨i, hi, hval⟩
  exact ⟨i, hi, by rw [getD_lt d l i hi]; exact hval⟩

theorem rows_len_getD (s : Sketch) (hwf : WF s) (i : Nat) (hi : i < s.k_num) :
    (s.counters.getD i []).length = s.mask + 1 :=
  hwf.rows_len _ (getD_mem [] s.counters i (by rw [hwf.counters_len]; omega))

theorem getCell_le (s : Sketch) (hwf : WF s) (i j : Nat) : getCell s i j ≤ s.cmax := by
  unfold getCell
  by_cases hi : i < s.counters.length
  · by_cases hj : j < (s.counters.getD i []).length
    · exact hwf.cells_le _ (getD_mem [] s.counters i hi) _ (getD_mem 0 _ j hj)
    · rw [getD_oob 0 _ j (by omega)]
      exact Nat.zero_le _
  · rw [getD_oob [] s.counters i (by omega)]
    simp

theorem getCell_oob_col (s : Sketch) (i j : Nat) (hi : s.counters.length ≤ i) :
    getCell s i j = 0 := by
  unfold getCell
  rw [getD_oob [] s.counters i hi]
  simp

theorem getCell_oob_row (s : Sketch) (hwf : WF s) (i j : Nat) (hj : s.mask + 1 ≤ j) :
    getCell s i j = 0 := by
  unfold getCell
  by_cases hi : i < s.counters.length
  · exact getD_oob 0 _ j (by rw [hwf.rows_len _ (getD_mem [] s.counters i hi)]; omega)
  · rw [getD_oob [] s.counters i (by omega)]
    simp

theorem cells_le_of_getCell (s : Sketch) (b : Nat) (hb : ∀ i j, getCell s i j ≤ b) :
    ∀ row ∈ s.counters, ∀ c ∈ row, c ≤ b := by
  intro row hrow c hc
  rcases mem_getD [] s.counters row hrow with ⟨i, hi, hrowD⟩
  rcases mem_getD 0 row c hc with ⟨j, hj, hcD⟩
  have := hb i j
  unfold getCell at this
  rw [hrowD, hcD] at this
  exact this

/-! ## Well-formedness preservation -/

theorem wf_add (s : Sketch) (h : HashPair) (v : Nat) (hwf : WF s) : WF (add s h v) := by
  have hC : s.k_num ≤ s.counters.length := le_of_eq hwf.counters_len.symm
  have hO : s.k_num ≤ s.offsets.length := le_of_eq hwf.offsets_len.symm
  refine ⟨hwf.pow, hwf.width_ge, hwf.width_le, hwf.knum_ge, ?_, ?_, ?_, hwf.idx_lt, ?_⟩
  · rw [add_counters_length, hwf.counters_len]
    rfl
  · intro row hrow
    rcases mem_getD [] _ row hrow with ⟨i, hi, hrowD⟩
    rw [add_counters_length, hwf.counters_len] at hi
    rw [add_row_getD s h v hC hO i, if_pos hi] at hrowD
    dsimp only at hrowD
    have hlen := rows_len_getD s hwf i hi
    split at hrowD <;> rw [← hrowD]
    · rw [List.length_set]
      exact hlen
    · exact hlen
  · rw [add_offsets_length, hwf.offsets_len]
    rfl
  · apply cells_le_of_getCell
    intro i j
    rw [add_getCell s h v hwf i j]
    split
    · exact Nat.min_le_right _ _
    · exact getCell_le s hwf i j

/-! ## Characterization of `reset` -/

theorem reset_counters_length (s : Sketch) : (reset s).counters.length = s.counters.length := by
  unfold reset
  exact foldl_step_length _ (fun l i => List.length_set l i _) _ _

theorem reset_row_getD (s : Sketch) (hC : s.k_num ≤ s.counters.length) (j : Nat) :
    (reset s).counters.getD j [] =
      if j < s.k_num then (s.counters.getD j []).map (fun c => c / 2)
      else s.counters.getD j [] := by
  unfold reset
  exact foldl_range_getD [] (fun _ row => row.map (fun c => c / 2))
    (fun cs k_i => cs.set k_i ((cs.getD k_i []).map (fun c => c / 2)))
    (fun l i => List.length_set l i _)
    (fun l i j hj => getD_set_ne [] _ l i j hj)
    (fun l i hi => getD_set_self [] _ l i hi)
    s.k_num s.counters hC j

theorem reset_getCell (s : Sketch) (hwf : WF s) (i j : Nat) :
    getCell (reset s) i j = getCell s i j / 2 := by
  unfold getCell
  rw [reset_row_getD s (le_of_eq hwf.counters_len.symm) i]
  by_cases hi : i < s.k_num
  · rw [if_pos hi, getD_map_half]
  · rw [if_neg hi]
    have hlen : s.counters.length ≤ i := by rw [hwf.counters_len]; omega
    rw [getD_oob [] s.counters i hlen]
    simp

theorem reset_counters_eq (s : Sketch) (hwf : WF s) :
    (reset s).counters = s.counters.map (List.map (fun c => c / 2)) := by
  apply ext_of_getD []
  · rw [reset_counters_length, List.length_map]
  · intro j
    rw [reset_row_getD s (le_of_eq hwf.counters_len.symm) j,
      getD_map_rows (List.map (fun c => c / 2)) rfl]
    by_cases hj : j < s.k_num
    · rw [if_pos hj]
    · rw [if_neg hj]
      have hlen : s.counters.length ≤ j := by rw [hwf.counters_len]; omega
      rw [getD_oob [] s.counters j hlen]
      rfl

theorem wf_reset (s : Sketch) (hwf : WF s) : WF (reset s) := by
  refine ⟨hwf.pow, hwf.width_ge, hwf.width_le, hwf.knum_ge, ?_, ?_, hwf.offsets_len, ?_, ?_⟩
  · rw [reset_counters_length]
    exact hwf.counters_len
  · intro row hrow
    rw [reset_counters_eq s hwf] at hrow
    rcases List.mem_map.mp hrow with ⟨row0, hrow0, hmap⟩
    rw [← hmap, List.length_map]
    exact hwf.rows_len _ hrow0
  · have := hwf.width_ge
    show 0 < s.mask + 1
    omega
  · apply cells_le_of_getCell
    intro i j
    rw [reset_getCell s hwf i j]
    exact le_trans (Nat.div_le_self _ 2) (getCell_le s hwf i j)

/-! ## Characterization of `reset_next` -/

theorem reset_next_counters_length (s : Sketch) :
    (reset_next s).1.counters.length = s.counters.length := by
  unfold reset_next
  exact foldl_step_length _ (fun l i => List.length_set l i _) _ _

theorem reset_next_row_getD (s : Sketch) (hC : s.k_num ≤ s.counters.length) (j : Nat) :
    (reset_next s).1.counters.getD j [] =
      if j < s.k_num then
        (s.counters.getD j []).set s.reset_idx ((s.counters.getD j []).getD s.reset_idx 0 / 2)
      else s.counters.getD j [] := by
  unfold reset_next
  exact foldl_range_getD []
    (fun _ row => row.set s.reset_idx (row.getD s.reset_idx 0 / 2))
    (fun cs k_i =>
      cs.set k_i ((cs.getD k_i []).set s.reset_idx ((cs.getD k_i []).getD s.reset_idx 0 / 2)))
    (fun l i => List.length_set l i _)
    (fun l i j hj => getD_set_ne [] _ l i j hj)
    (fun l i hi => getD_set_self [] _ l i hi)
    s.k_num s.counters hC j

theorem reset_next_getCell (s : Sketch) (hwf : WF s) (i j : Nat) :
    getCell (reset_next s).1 i j =
      if i < s.k_num ∧ j = s.reset_idx then getCell s i j / 2 else getCell s i j := by
  unfold getCell
  rw [reset_next_row_getD s (le_of_eq hwf.counters_len.symm) i]
  by_cases hi : i < s.k_num
  · rw [if_pos hi]
    have hidx : s.reset_idx < (s.counters.getD i []).length := by
      rw [rows_len_getD s hwf i hi]
      exact hwf.idx_lt
    by_cases hj : j = s.reset_idx
    · subst hj
      rw [getD_set_self 0 _ _ _ hidx, if_pos ⟨hi, rfl⟩]
    · rw [getD_set_ne 0 _ _ _ _ hj, if_neg (by tauto)]
  · rw [if_neg hi, if_neg (by tauto)]

theorem reset_next_reset_idx (s : Sketch) (hwf : WF s) :
    (reset_next s).1.reset_idx = (s.reset_idx + 1) % (s.mask + 1) := by
  show ((s.reset_idx + 1) % U64) &&& s.mask = (s.reset_idx + 1) % (s.mask + 1)
  have hlt : s.reset_idx + 1 < U64 := by
    have h1 := hwf.idx_lt
    have h2 := hwf.width_le
    have : (2 : Nat) ^ 63 < U64 := by unfold U64; norm_num
    omega
  rw [Nat.mod_eq_of_lt hlt]
  rcases hwf.pow with ⟨t, ht⟩
  have hm : s.mask = 2 ^ t - 1 := by omega
  rw [hm, Nat.and_pow_two_sub_one_eq_mod]
  congr 1
  omega

theorem reset_next_snd (s : Sketch) (hwf : WF s) :
    (reset_next s).2 =
      if (s.reset_idx + 1) % (s.mask + 1) ≠ 0 then some ((s.reset_idx + 1) % (s.mask + 1))
      else none := by
  show (if ((s.reset_idx + 1) % U64) &&& s.mask ≠ 0
    then some (((s.reset_idx + 1) % U64) &&& s.mask) else none) = _
  have heq : ((s.reset_idx + 1) % U64) &&& s.mask = (s.reset_idx + 1) % (s.mask + 1) :=
    reset_next_reset_idx s hwf
  rw [heq]

theorem wf_reset_next (s : Sketch) (hwf : WF s) : WF (reset_next s).1 := by
  have hC : s.k_num ≤ s.counters.length := le_of_eq hwf.counters_len.symm
  refine ⟨hwf.pow, hwf.width_ge, hwf.width_le, hwf.knum_ge, ?_, ?_, hwf.offsets_len, ?_, ?_⟩
  · rw [reset_next_counters_length]
    exact hwf.counters_len
  · intro row hrow
    rcases mem_getD [] _ row hrow with ⟨i, hi, hrowD⟩
    rw [reset_next_counters_length, hwf.counters_len] at hi
    rw [reset_next_row_getD s hC i, if_pos hi] at hrowD
    rw [← hrowD, List.length_set]
    exact rows_len_getD s hwf i hi
  · rw [reset_next_reset_idx s hwf]
    exact Nat.mod_lt _ (by omega)
  · apply cells_le_of_getCell
    intro i j
    rw [reset_next_getCell s hwf i j]
    split
    · exact le_trans (Nat.div_le_self _ 2) (getCell_le s hwf i j)
    · exact getCell_le s hwf i j

theorem wf_applyOp (s : Sketch) (op : Op) (hwf : WF s) : WF (applyOp s op) := by
  cases op with
  | add h v => exact wf_add s h v hwf
  | increment h => exact wf_add s h 1 hwf
  | reset => exact wf_reset s hwf
  | resetNext => exact wf_reset_next s hwf

theorem wf_runOps (ops : List Op) : ∀ (s : Sketch), WF s → WF (runOps s ops) := by
  induction ops with
  | nil => intro s hwf; exact hwf
  | cons op rest ih => intro s hwf; exact ih (applyOp s op) (wf_applyOp s op hwf)

theorem wf_runAdds (ops : List (HashPair × Nat)) :
    ∀ (s : Sketch), WF s → WF (runAdds s ops) := by
  induction ops with
  | nil => intro s hwf; exact hwf
  | cons op rest ih => intro s hwf; exact ih (add s op.1 op.2) (wf_add s op.1 op.2 hwf)

theorem runOps_mask_k_num (ops : List Op) :
    ∀ (s : Sketch), (runOps s ops).mask = s.mask ∧ (runOps s ops).k_num = s.k_num ∧
      (runOps s ops).cmax = s.cmax := by
  induction ops with
  | nil => intro s; exact ⟨rfl, rfl, rfl⟩
  | cons op rest ih =>
    intro s
    have := ih (applyOp s op)
    have hop : (applyOp s op).mask = s.mask ∧ (applyOp s op).k_num = s.k_num ∧
        (applyOp s op).cmax = s.cmax := by
      cases op <;> exact ⟨rfl, rfl, rfl⟩
    exact ⟨by rw [runOps, ← hop.1]; exact (ih _).1,
           by rw [runOps, ← hop.2.1]; exact (ih _).2.1,
           by rw [runOps, ← hop.2.2]; exact (ih _).2.2⟩

/-! ## `nextPowerOfTwo` and constructor lemmas -/

theorem nextPow2Go_pow (n : Nat) :
    ∀ (fuel power : Nat), (∃ u, power = 2 ^ u) → ∃ t, nextPow2Go n fuel power = 2 ^ t := by
  intro fuel
  induction fuel with
  | zero => intro power hp; exact hp
  | succ fuel ih =>
    intro power hp
    unfold nextPow2Go
    split
    · exact hp
    · rcases hp with ⟨u, hu⟩
      exact ih (power * 2) ⟨u + 1, by rw [hu, Nat.pow_succ]⟩

theorem le_nextPow2Go (n : Nat) :
    ∀ (fuel power : Nat), n ≤ power * 2 ^ fuel → n ≤ nextPow2Go n fuel power := by
  intro fuel
  induction fuel with
  | zero => intro power hp; simpa using hp
  | succ fuel ih =>
    intro power hp
    unfold nextPow2Go
    split
    · assumption
    · apply ih (power * 2)
      calc n ≤ power * 2 ^ (fuel + 1) := hp
        _ = power * 2 * 2 ^ fuel := by ring

theorem nextPow2Go_le (n t : Nat) :
    ∀ (fuel power : Nat), (∃ u, power = 2 ^ u) → power ≤ 2 ^ t → n ≤ 2 ^ t →
      nextPow2Go n fuel power ≤ 2 ^ t := by
  intro fuel
  induction fuel with
  | zero => intro power _ hp _; exact hp
  | succ fuel ih =>
    intro power hpow hp hn
    unfold nextPow2Go
    split
    · exact hp
    · rcases hpow with ⟨u, hu⟩
      apply ih (power * 2) ⟨u + 1, by rw [hu, Nat.pow_succ]⟩ _ hn
      have hlt : power < 2 ^ t := by omega
      have hut : u < t := by
        by_contra hut
        have : 2 ^ t ≤ 2 ^ u := Nat.pow_le_pow_right (by omega) (by omega)
        omega
      calc power * 2 = 2 ^ (u + 1) := by rw [hu, Nat.pow_succ]
        _ ≤ 2 ^ t := Nat.pow_le_pow_right (by omega) (by omega)

theorem nextPowerOfTwo_pow (n : Nat) : ∃ t, nextPowerOfTwo n = 2 ^ t :=
  nextPow2Go_pow n 64 1 ⟨0, rfl⟩

theorem le_nextPowerOfTwo (n : Nat) (h : n ≤ 2 ^ 63) : n ≤ nextPowerOfTwo n := by
  apply le_nextPow2Go n 64 1
  calc n ≤ 2 ^ 63 := h
    _ ≤ 1 * 2 ^ 64 := by norm_num

theorem nextPowerOfTwo_le (n : Nat) (h : n ≤ 2 ^ 63) : nextPowerOfTwo n ≤ 2 ^ 63 :=
  nextPow2Go_le n 63 64 1 ⟨0, rfl⟩ (Nat.one_le_two_pow) h

theorem mask_of_pow (width : Nat) (hw : 2 ≤ width) (ht : ∃ t, width = 2 ^ t) :
    mask width = .ok (width - 1) := by
  rcases ht with ⟨t, rfl⟩
  unfold mask
  rw [if_pos]
  refine ⟨by omega, ?_⟩
  rw [Nat.and_pow_two_sub_one_eq_mod, Nat.mod_self]

/-- The sketch state `new` builds when the width computation succeeds. -/
theorem new_ok_of_le (cmax r kf : Nat) (hk : Hashers) (h : max 2 r ≤ 2 ^ 63) :
    new cmax r kf hk = .ok
      { counters := List.replicate (max 1 kf) (List.replicate (nextPowerOfTwo (max 2 r)) 0)
        offsets := List.replicate (max 1 kf) 0
        hashers := hk
        mask := nextPowerOfTwo (max 2 r) - 1
        k_num := max 1 kf
        reset_idx := 0
        cmax := cmax } := by
  have hge : 2 ≤ nextPowerOfTwo (max 2 r) :=
    le_trans (Nat.le_max_left 2 r) (le_nextPowerOfTwo _ h)
  unfold new optimal_width checkedNextPowerOfTwo
  rw [if_pos h]
  dsimp only
  rw [mask_of_pow _ hge (nextPowerOfTwo_pow _)]
  rfl

theorem new_panicked_of_gt (cmax r kf : Nat) (hk : Hashers) (h : 2 ^ 63 < max 2 r) :
    new cmax r kf hk = .panicked "Width would be way too large" := by
  unfold new optimal_width checkedNextPowerOfTwo
  rw [if_neg (by omega)]

theorem new_ok_inv (cmax r kf : Nat) (hk : Hashers) (s : Sketch)
    (hnew : new cmax r kf hk = .ok s) :
    max 2 r ≤ 2 ^ 63 ∧ s =
      { counters := List.replicate (max 1 kf) (List.replicate (nextPowerOfTwo (max 2 r)) 0)
        offsets := List.replicate (max 1 kf) 0
        hashers := hk
        mask := nextPowerOfTwo (max 2 r) - 1
        k_num := max 1 kf
        reset_idx := 0
        cmax := cmax } := by
  by_cases h : max 2 r ≤ 2 ^ 63
  · refine ⟨h, ?_⟩
    rw [new_ok_of_le cmax r kf hk h] at hnew
    injection hnew with heq
    exact heq.symm
  · rw [new_panicked_of_gt cmax r kf hk (by omega)] at hnew
    exact absurd hnew (by simp)

theorem wf_new (cmax r kf : Nat) (hk : Hashers) (s : Sketch)
    (hnew : new cmax r kf hk = .ok s) : WF s := by
  rcases new_ok_inv cmax r kf hk s hnew with ⟨hle, rfl⟩
  have hge : 2 ≤ nextPowerOfTwo (max 2 r) :=
    le_trans (Nat.le_max_left 2 r) (le_nextPowerOfTwo _ hle)
  have hmask : nextPowerOfTwo (max 2 r) - 1 + 1 = nextPowerOfTwo (max 2 r) := by omega
  refine ⟨?_, ?_, ?_, ?_, ?_, ?_, ?_, ?_, ?_⟩
  · rcases nextPowerOfTwo_pow (max 2 r) with ⟨t, ht⟩
    exact ⟨t, by simpa [hmask] using ht⟩
  · simpa [hmask] using hge
  · simpa [hmask] using nextPowerOfTwo_le _ hle
  · exact Nat.le_max_left 1 kf
  · simp
  · intro row hrow
    rw [List.eq_of_mem_replicate hrow]
    simpa using hmask.symm
  · simp
  · show 0 < nextPowerOfTwo (max 2 r) - 1 + 1
    omega
  · intro row hrow c hc
    rw [List.eq_of_mem_replicate hrow] at hc
    rw [List.eq_of_mem_replicate hc]
    exact Nat.zero_le _

theorem new_getCell (cmax r kf : Nat) (hk : Hashers) (s : Sketch)
    (hnew : new cmax r kf hk = .ok s) : ∀ i j, getCell s i j = 0 := by
  rcases new_ok_inv cmax r kf hk s hnew with ⟨_, rfl⟩
  intro i j
  unfold getCell
  dsimp only
  rw [getD_replicate]
  by_cases hi : i < max 1 kf
  · rw [if_pos hi, getD_replicate]
    split <;> rfl
  · rw [if_neg hi]
    simp

theorem estimate_of_zero (s : Sketch) (hk : 0 < s.k_num)
    (hzero : ∀ i j, getCell s i j = 0) (h : HashPair) : estimate s h = 0 := by
  rw [estimate_eq_lowestOf]
  rcases lowestOf_attained s h hk with ⟨i, _, hval⟩
  rw [hval, hzero]

/-! ## The conservative-update lower bound -/

theorem add_cell_mono (s : Sketch) (h : HashPair) (v : Nat) (hwf : WF s) (i j : Nat) :
    getCell s i j ≤ getCell (add s h v) i j := by
  rw [add_getCell s h v hwf i j]
  split
  · exact le_min (Nat.le_add_right _ _) (getCell_le s hwf i j)
  · exact le_refl _

theorem estimate_mono_add (s : Sketch) (key h : HashPair) (v : Nat) (hwf : WF s) :
    estimate s key ≤ estimate (add s h v) key := by
  rw [estimate_eq_lowestOf, estimate_eq_lowestOf]
  have hk' : 0 < (add s h v).k_num := hwf.knum_ge
  rcases lowestOf_attained (add s h v) key hk' with ⟨i, hi, hval⟩
  rw [hval]
  calc lowestOf s key ≤ getCell s i (offset s.mask key i) :=
        lowestOf_le_cell s key hwf.knum_ge i hi
    _ ≤ getCell (add s h v) i (offset s.mask key i) := add_cell_mono s h v hwf i _

theorem stepSat_false (s : Sketch) (h : HashPair) (v : Nat) (hns : stepSat s h v = false)
    (i : Nat) (hi : i < s.k_num)
    (heq : getCell s i (offset s.mask h i) = lowestOf s h) :
    getCell s i (offset s.mask h i) + v ≤ s.cmax := by
  unfold stepSat at hns
  rw [List.any_eq_false] at hns
  have := hns i (List.mem_range.mpr hi)
  simp only [Bool.and_eq_true, decide_eq_true_eq, not_and, not_lt] at this
  exact this heq

theorem estimate_add_unit (s : Sketch) (key : HashPair) (hwf : WF s)
    (hns : stepSat s key 1 = false) :
    estimate s key + 1 ≤ estimate (add s key 1) key := by
  rw [estimate_eq_lowestOf, estimate_eq_lowestOf]
  apply le_lowestOf (add s key 1) key hwf.knum_ge
  show ∀ i, i < s.k_num → lowestOf s key + 1 ≤ getCell (add s key 1) i (offset s.mask key i)
  intro i hi
  rw [add_getCell s key 1 hwf i (offset s.mask key i)]
  by_cases hc : getCell s i (offset s.mask key i) = lowestOf s key
  · rw [if_pos ⟨hi, rfl, hc⟩]
    have hsat := stepSat_false s key 1 hns i hi hc
    unfold satAdd
    omega
  · rw [if_neg (by tauto)]
    have := lowestOf_le_cell s key hwf.knum_ge i hi
    omega

theorem runAdds_lower (ops : List (HashPair × Nat)) :
    ∀ (s : Sketch), WF s → runNoSat s ops = true →
      ∀ key, estimate s key + countUnit key ops ≤ estimate (runAdds s ops) key := by
  induction ops with
  | nil =>
    intro s _ _ key
    simp [countUnit, runAdds]
  | cons op rest ih =>
    intro s hwf hns key
    obtain ⟨h, v⟩ := op
    unfold runNoSat at hns
    rw [Bool.and_eq_true, Bool.not_eq_true'] at hns
    obtain ⟨hns1, hns2⟩ := hns
    have hwf' := wf_add s h v hwf
    have hih := ih (add s h v) hwf' hns2 key
    show estimate s key + countUnit key ((h, v) :: rest) ≤
      estimate (runAdds (add s h v) rest) key
    unfold countUnit at hih ⊢
    rw [List.countP_cons]
    by_cases hop : h = key ∧ v = 1
    · have hadd : add s h v = add s key 1 := by rw [hop.1, hop.2]
      have hstep : estimate s key + 1 ≤ estimate (add s key 1) key :=
        estimate_add_unit s key hwf (by rw [← hop.1, ← hop.2]; exact hns1)
      rw [hadd] at hih
      have hifone : (if (decide ((h, v).1 = key ∧ (h, v).2 = 1) : Bool) then 1 else 0) = 1 := by
        simp [hop.1, hop.2]
      rw [hifone, hadd]
      omega
    · have hstep : estimate s key ≤ estimate (add s h v) key :=
        estimate_mono_add s key h v hwf
      have hifzero : (if (decide ((h, v).1 = key ∧ (h, v).2 = 1) : Bool) then 1 else 0) = 0 := by
        simp only [decide_eq_true_eq]
        rw [if_neg]
        simpa using hop
      rw [hifzero]
      omega

/-! ## Iterated single-key increments (saturation behaviour) -/

theorem iter_incr_fields (h : HashPair) :
    ∀ (n : Nat) (s : Sketch),
      ((fun s => increment s h)^[n] s).mask = s.mask ∧
      ((fun s => increment s h)^[n] s).k_num = s.k_num ∧
      ((fun s => increment s h)^[n] s).cmax = s.cmax := by
  intro n
  induction n with
  | zero => intro s; exact ⟨rfl, rfl, rfl⟩
  | succ n ih =>
    intro s
    rw [Function.iterate_succ_apply']
    rcases ih s with ⟨h1, h2, h3⟩
    exact ⟨h1, h2, h3⟩

theorem wf_iter_incr (h : HashPair) :
    ∀ (n : Nat) (s : Sketch), WF s → WF ((fun s => increment s h)^[n] s) := by
  intro n
  induction n with
  | zero => intro s hwf; exact hwf
  | succ n ih =>
    intro s hwf
    rw [Function.iterate_succ_apply']
    exact wf_add _ h 1 (ih s hwf)

theorem iter_incr_cells (h : HashPair) :
    ∀ (n : Nat) (s : Sketch), WF s → (∀ i j, getCell s i j = 0) →
      ∀ i, i < s.k_num →
        getCell ((fun s => increment s h)^[n] s) i (offset s.mask h i) = min n s.cmax := by
  intro n
  induction n with
  | zero =>
    intro s _ hzero i _
    rw [Function.iterate_zero_apply, hzero]
    simp
  | succ n ih =>
    intro s hwf hzero i hi
    rw [Function.iterate_succ_apply']
    have hwfn := wf_iter_incr h n s hwf
    rcases iter_incr_fields h n s with ⟨hmask, hknum, hcmax⟩
    have hlow : lowestOf ((fun s => increment s h)^[n] s) h = min n s.cmax := by
      rcases lowestOf_attained _ h (by rw [hknum]; omega) with ⟨i0, hi0, hval⟩
      rw [hval]
      rw [hknum] at hi0
      have := ih s hwf hzero i0 hi0
      rw [← hmask] at this
      exact this
    show getCell (add ((fun s => increment s h)^[n] s) h 1) i (offset s.mask h i) = _
    rw [← hmask, add_getCell _ h 1 hwfn i _]
    have hcell : getCell ((fun s => increment s h)^[n] s) i
        (offset ((fun s => increment s h)^[n] s).mask h i) = min n s.cmax := by
      rw [hmask]
      exact ih s hwf hzero i hi
    rw [if_pos ⟨by rw [hknum]; omega, rfl, by rw [hcell, hlow]⟩]
    rw [hcell]
    unfold satAdd
    rw [hcmax]
    omega

theorem estimate_iter_incr (h : HashPair) (n : Nat) (s : Sketch) (hwf : WF s)
    (hzero : ∀ i j, getCell s i j = 0) :
    estimate ((fun s => increment s h)^[n] s) h = min n s.cmax := by
  rw [estimate_eq_lowestOf]
  have hwfn := wf_iter_incr h n s hwf
  rcases iter_incr_fields h n s with ⟨hmask, hknum, _⟩
  rcases lowestOf_attained _ h (show 0 < ((fun s => increment s h)^[n] s).k_num by
    rw [hknum]; exact hwf.knum_ge) with ⟨i0, hi0, hval⟩
  rw [hval]
  rw [hknum] at hi0
  have := iter_incr_cells h n s hwf hzero i0 hi0
  rw [← hmask] at this
  exact this

/-! ## Iterated `reset_next` (the incremental decay sweep) -/

theorem iter_rn_fields :
    ∀ (n : Nat) (s : Sketch),
      (resetNextState^[n] s).mask = s.mask ∧
      (resetNextState^[n] s).k_num = s.k_num ∧
      (resetNextState^[n] s).cmax = s.cmax := by
  intro n
  induction n with
  | zero => intro s; exact ⟨rfl, rfl, rfl⟩
  | succ n ih =>
    intro s
    rw [Function.iterate_succ_apply']
    rcases ih s with ⟨h1, h2, h3⟩
    exact ⟨h1, h2, h3⟩

theorem wf_iter_rn :
    ∀ (n : Nat) (s : Sketch), WF s → WF (resetNextState^[n] s) := by
  intro n
  induction n with
  | zero => intro s hwf; exact hwf
  | succ n ih =>
    intro s hwf
    rw [Function.iterate_succ_apply']
    exact wf_reset_next _ (ih s hwf)

theorem iter_rn_counters_length :
    ∀ (n : Nat) (s : Sketch),
      (resetNextState^[n] s).counters.length = s.counters.length := by
  intro n
  induction n with
  | zero => intro s; rfl
  | succ n ih =>
    intro s
    rw [Function.iterate_succ_apply']
    rw [show (resetNextState (resetNextState^[n] s)).counters.length =
      (resetNextState^[n] s).counters.length from reset_next_counters_length _]
    exact ih s

theorem iter_rn_idx :
    ∀ (n : Nat) (s : Sketch), WF s →
      (resetNextState^[n] s).reset_idx = (s.reset_idx + n) % (s.mask + 1) := by
  intro n
  induction n with
  | zero =>
    intro s hwf
    rw [Function.iterate_zero_apply, Nat.add_zero]
    exact (Nat.mod_eq_of_lt hwf.idx_lt).symm
  | succ n ih =>
    intro s hwf
    rw [Function.iterate_succ_apply']
    have hwfn := wf_iter_rn n s hwf
    rw [show resetNextState (resetNextState^[n] s) = (reset_next (resetNextState^[n] s)).1 from rfl]
    rw [reset_next_reset_idx _ hwfn, ih s hwf, (iter_rn_fields n s).1]
    rw [Nat.mod_add_mod]
    congr 1

theorem mod_window_inj (w c t n : Nat) (ht : t < w) (hn : n < w)
    (h : (c + t) % w = (c + n) % w) : t = n := by
  have hmod : t % w = n % w :=
    Nat.ModEq.add_left_cancel (Nat.ModEq.refl c) h
  rw [Nat.mod_eq_of_lt ht, Nat.mod_eq_of_lt hn] at hmod
  exact hmod

theorem exists_window (w c q : Nat) (hc : c < w) (hq : q < w) :
    ∃ t, t < w ∧ (c + t) % w = q := by
  refine ⟨(q + w - c) % w, Nat.mod_lt _ (by omega), ?_⟩
  have hmeq : (c + (q + w - c) % w) % w = (c + (q + w - c)) % w :=
    Nat.ModEq.add_left c (Nat.mod_modEq (q + w - c) w)
  rw [hmeq, show c + (q + w - c) = q + w by omega, Nat.add_mod_right, Nat.mod_eq_of_lt hq]

theorem iter_rn_getCell :
    ∀ (n : Nat) (s : Sketch), WF s → n ≤ s.mask + 1 → ∀ i j, j < s.mask + 1 →
      getCell (resetNextState^[n] s) i j =
        if i < s.k_num ∧ ∃ t, t < n ∧ (s.reset_idx + t) % (s.mask + 1) = j then
          getCell s i j / 2
        else getCell s i j := by
  intro n
  induction n with
  | zero =>
    intro s _ _ i j _
    rw [Function.iterate_zero_apply, if_neg]
    rintro ⟨_, t, ht, _⟩
    omega
  | succ n ih =>
    intro s hwf hn i j hj
    have hwfn := wf_iter_rn n s hwf
    rcases iter_rn_fields n s with ⟨hmask, hknum, _⟩
    rw [Function.iterate_succ_apply']
    rw [show resetNextState (resetNextState^[n] s) = (reset_next (resetNextState^[n] s)).1 from rfl]
    rw [reset_next_getCell _ hwfn i j, hknum, iter_rn_idx n s hwf]
    have hihj := ih s hwf (by omega) i j hj
    by_cases hi : i < s.k_num
    · by_cases hjc : j = (s.reset_idx + n) % (s.mask + 1)
      · have hnohit : ¬(i < s.k_num ∧ ∃ t, t < n ∧ (s.reset_idx + t) % (s.mask + 1) = j) := by
          rintro ⟨_, t, ht, hteq⟩
          have htn : t = n := mod_window_inj (s.mask + 1) s.reset_idx t n
            (by omega) (by omega) (by rw [hteq, ← hjc])
          omega
        rw [if_pos ⟨hi, hjc⟩, hihj, if_neg hnohit, if_pos ⟨hi, n, by omega, hjc.symm⟩]
      · rw [if_neg (fun hcond => hjc hcond.2), hihj]
        by_cases hex : ∃ t, t < n ∧ (s.reset_idx + t) % (s.mask + 1) = j
        · rcases hex with ⟨t, ht, hteq⟩
          rw [if_pos ⟨hi, t, ht, hteq⟩, if_pos ⟨hi, t, by omega, hteq⟩]
        · rw [if_neg (fun hcond => hex hcond.2), if_neg]
          rintro ⟨_, t, ht, hteq⟩
          rcases Nat.lt_or_ge t n with htn | htn
          · exact hex ⟨t, htn, hteq⟩
          · have htn' : t = n := by omega
            subst htn'
            exact hjc hteq.symm
    · rw [if_neg (fun hcond => hi hcond.1), hihj, if_neg (fun hcond => hi hcond.1),
        if_neg (fun hcond => hi hcond.1)]

theorem iter_rn_full_counters (s : Sketch) (hwf : WF s) :
    (resetNextState^[s.mask + 1] s).counters = (reset s).counters := by
  have hwfI := wf_iter_rn (s.mask + 1) s hwf
  have hwfR := wf_reset s hwf
  rcases iter_rn_fields (s.mask + 1) s with ⟨hmaskI, hknumI, _⟩
  apply ext_of_getD []
  · rw [iter_rn_counters_length, reset_counters_length]
  · intro p
    by_cases hp : p < s.counters.length
    · apply ext_of_getD 0
      · have hlenI : ((resetNextState^[s.mask + 1] s).counters.getD p []).length =
            s.mask + 1 := by
          have := rows_len_getD _ hwfI p (by rw [hknumI, ← hwf.counters_len]; exact hp)
          rw [hmaskI] at this
          exact this
        have hlenR : ((reset s).counters.getD p []).length = s.mask + 1 :=
          rows_len_getD _ hwfR p (by rw [reset_k_num, ← hwf.counters_len]; exact hp)
        rw [hlenI, hlenR]
      · intro q
        by_cases hq : q < s.mask + 1
        · show getCell (resetNextState^[s.mask + 1] s) p q = getCell (reset s) p q
          rw [iter_rn_getCell (s.mask + 1) s hwf (le_refl _) p q hq]
          rw [reset_getCell s hwf p q]
          rw [if_pos ⟨by rw [← hwf.counters_len]; exact hp,
            exists_window (s.mask + 1) s.reset_idx q hwf.idx_lt hq⟩]
        · have hlenI : ((resetNextState^[s.mask + 1] s).counters.getD p []).length =
              s.mask + 1 := by
            have := rows_len_getD _ hwfI p (by rw [hknumI, ← hwf.counters_len]; exact hp)
            rw [hmaskI] at this
            exact this
          have hlenR : ((reset s).counters.getD p []).length = s.mask + 1 :=
            rows_len_getD _ hwfR p (by rw [reset_k_num, ← hwf.counters_len]; exact hp)
          rw [getD_oob 0 _ q (by omega), getD_oob 0 _ q (by omega)]
    · rw [getD_oob [] _ p (by rw [iter_rn_counters_length]; omega),
        getD_oob [] _ p (by rw [reset_counters_length]; omega)]

/-! ## Remaining helpers for the claim theorems -/

theorem getD_map_range (f : Nat → Nat) (n j : Nat) :
    ((List.range n).map f).getD j 0 = if j < n then f j else 0 := by
  by_cases hj : j < n
  · rw [if_pos hj, getD_lt 0 _ j (by simpa using hj)]
    simp
  · rw [if_neg hj, getD_oob 0 _ j (by simpa using hj)]

theorem add_offsets_eq (s : Sketch) (h : HashPair) (v : Nat) (hwf : WF s) :
    (add s h v).offsets = (List.range s.k_num).map (offset s.mask h) := by
  apply ext_of_getD 0
  · rw [add_offsets_length, hwf.offsets_len, List.length_map, List.length_range]
  · intro j
    rw [add_offsets_getD s h v (le_of_eq hwf.offsets_len.symm) j, getD_map_range]
    by_cases hj : j < s.k_num
    · rw [if_pos hj, if_pos hj]
    · rw [if_neg hj, if_neg hj, getD_oob 0 _ j (by rw [hwf.offsets_len]; omega)]

theorem wf_sW : WF sW :=
  ⟨⟨2, rfl⟩, by decide, by decide, by decide, by decide, by decide, by decide,
    by decide, by decide⟩

/-! ## Claim theorems -/

/-- C2 counterexample: the claim states the column index for `k_i ≥ 2` is
`((h0 + k_i * h1) mod LARGE_PRIME) & mask`, the modulus applied to the full
sum.  At `h0 = 0`, `h1 = 2^63`, `k_i = 2`, `mask = 63` the code produces `0`
(the product `2 * 2^63` wraps to `0` before the modulus) while the claimed
formula produces `59`. -/
theorem offset_full_sum_counterexample :
    offset 63 ⟨0, 2 ^ 63⟩ 2 = 0 ∧ offsetClaimC2 63 ⟨0, 2 ^ 63⟩ 2 = 59 ∧
    offset 63 ⟨0, 2 ^ 63⟩ 2 ≠ offsetClaimC2 63 ⟨0, 2 ^ 63⟩ 2 := by
  refine ⟨by decide, by decide, by decide⟩

/-- C2 (amended): for every row index `k_i ≥ 2` the code computes the column
index as `(h0 +₆₄ ((k_i *₆₄ h1) mod LARGE_PRIME)) & mask`, where `+₆₄`/`*₆₄`
are wrapping 64-bit operations — the modulus `LARGE_PRIME` (the fixed large
odd value `2^64 − 59`) is applied only to the product `k_i * h1`, not to the
full sum. -/
theorem offset_modulus_product_only (m : Nat) (h : HashPair) (k_i : Nat) (hk : 2 ≤ k_i) :
    offset m h k_i = ((h.h0 + (k_i * h.h1) % U64 % LARGE_PRIME) % U64) &&& m ∧
    LARGE_PRIME % 2 = 1 ∧ LARGE_PRIME = 2 ^ 64 - 59 := by
  refine ⟨?_, by decide, by decide⟩
  unfold offset
  rw [if_neg (by omega)]

/-- Witness for the amended C2 theorem at `m = 63`, `h = (0, 2^63)`,
`k_i = 2`. -/
theorem offset_modulus_product_only_witness :
    2 ≤ 2 ∧
    (offset 63 ⟨0, 2 ^ 63⟩ 2 = ((0 + (2 * 2 ^ 63) % U64 % LARGE_PRIME) % U64) &&& 63 ∧
     LARGE_PRIME % 2 = 1 ∧ LARGE_PRIME = 2 ^ 64 - 59) :=
  ⟨by decide, offset_modulus_product_only 63 ⟨0, 2 ^ 63⟩ 2 (by decide)⟩

/-- C3 counterexample: the claim states that the sizing failure is surfaced as
a returned error value rather than an abort.  At `r = 2^63 + 1` (a rounded
width input whose next power of two is not representable) the code aborts via
`expect("Width would be way too large")`; the `Err` variant is not produced. -/
theorem new_sizing_error_counterexample :
    new 255 (2 ^ 63 + 1) 4 hkW = RunResult.panicked "Width would be way too large" ∧
    RunResult.isErr (new 255 (2 ^ 63 + 1) 4 hkW) = false := by
  refine ⟨by decide, by decide⟩

/-- C3 (amended): whenever the derived column count cannot be rounded up to a
power of two representable in `usize` (`max 2 r > 2^63`), construction aborts
with the panic message "Width would be way too large" — it does not return a
recoverable error value; for all other parameter values construction succeeds
with `Ok`, and the `Err` variant is never returned. -/
theorem new_panics_or_succeeds (cmax r kf : Nat) (hk : Hashers) :
    RunResult.isErr (new cmax r kf hk) = false ∧
    ((2 ^ 63 < max 2 r ∧ new cmax r kf hk = .panicked "Width would be way too large") ∨
     (max 2 r ≤ 2 ^ 63 ∧ RunResult.isOk (new cmax r kf hk) = true)) := by
  by_cases h : max 2 r ≤ 2 ^ 63
  · rw [new_ok_of_le cmax r kf hk h]
    exact ⟨rfl, Or.inr ⟨h, rfl⟩⟩
  · rw [new_panicked_of_gt cmax r kf hk (by omega)]
    exact ⟨rfl, Or.inl ⟨by omega, rfl⟩⟩

/-- C9: every sketch returned by the constructor has
`width = nextPowerOfTwo (max 2 r)` (with `r` the rounded `2 / (tolerance /
capacity)`), a power of two that is `≥ 2` and at least the rounded value, and
`k_num = max 1 kf ≥ 1` (with `kf` the truncated `ln (1 − probability) /
ln 0.5`); the dimensions are preserved by every subsequent operation. -/
theorem constructed_dimensions (cmax r kf : Nat) (hk : Hashers) (s : Sketch)
    (hnew : new cmax r kf hk = .ok s) :
    s.mask + 1 = nextPowerOfTwo (max 2 r) ∧
    (∃ t, s.mask + 1 = 2 ^ t) ∧ 2 ≤ s.mask + 1 ∧ max 2 r ≤ s.mask + 1 ∧
    s.k_num = optimal_k_num kf ∧ 1 ≤ s.k_num ∧
    (∀ ops : List Op, (runOps s ops).mask = s.mask ∧ (runOps s ops).k_num = s.k_num) := by
  have hwf := wf_new cmax r kf hk s hnew
  rcases new_ok_inv cmax r kf hk s hnew with ⟨hle, rfl⟩
  have hge : 2 ≤ nextPowerOfTwo (max 2 r) :=
    le_trans (Nat.le_max_left 2 r) (le_nextPowerOfTwo _ hle)
  have hmask : nextPowerOfTwo (max 2 r) - 1 + 1 = nextPowerOfTwo (max 2 r) := by omega
  refine ⟨hmask, hwf.pow, hwf.width_ge, ?_, rfl, hwf.knum_ge, ?_⟩
  · show max 2 r ≤ nextPowerOfTwo (max 2 r) - 1 + 1
    rw [hmask]
    exact le_nextPowerOfTwo _ hle
  · intro ops
    exact ⟨(runOps_mask_k_num ops _).1, (runOps_mask_k_num ops _).2.1⟩

/-- Witness for C9 at the concrete constructor call `new 255 3 2 hkW`. -/
theorem constructed_dimensions_witness :
    new 255 3 2 hkW = RunResult.ok s0W ∧
    s0W.mask + 1 = nextPowerOfTwo (max 2 3) ∧
    s0W.k_num = optimal_k_num 2 ∧ 1 ≤ s0W.k_num ∧
    (runOps s0W [Op.reset]).mask = s0W.mask :=
  ⟨by decide,
   (constructed_dimensions 255 3 2 hkW s0W (by decide)).1,
   (constructed_dimensions 255 3 2 hkW s0W (by decide)).2.2.2.2.1,
   (constructed_dimensions 255 3 2 hkW s0W (by decide)).2.2.2.2.2.1,
   ((constructed_dimensions 255 3 2 hkW s0W (by decide)).2.2.2.2.2.2 [Op.reset]).1⟩

/-- C10: for every parameter combination for which the internal width
computation does not abort, both `new` and `estimate_memory` return the `Ok`
variant; the `Err` variant of their `Result` type is unreachable for all
inputs. -/
theorem err_variant_unreachable (cmax size r kf : Nat) (hk : Hashers) :
    RunResult.isErr (new cmax r kf hk) = false ∧
    RunResult.isErr (estimate_memory size r kf) = false ∧
    RunResult.isOk (new cmax r kf hk) = (optimal_width r).isSome ∧
    RunResult.isOk (estimate_memory size r kf) = (optimal_width r).isSome := by
  by_cases h : max 2 r ≤ 2 ^ 63
  · have hemem : estimate_memory size r kf =
        .ok (nextPowerOfTwo (max 2 r) * size * optimal_k_num kf) := by
      unfold estimate_memory optimal_width checkedNextPowerOfTwo
      rw [if_pos h]
    have hw : (optimal_width r).isSome = true := by
      unfold optimal_width checkedNextPowerOfTwo
      rw [if_pos h]
      rfl
    rw [new_ok_of_le cmax r kf hk h, hemem, hw]
    exact ⟨rfl, rfl, rfl, rfl⟩
  · have hemem : estimate_memory size r kf = .panicked "Width would be way too large" := by
      unfold estimate_memory optimal_width checkedNextPowerOfTwo
      rw [if_neg (by omega)]
    have hw : (optimal_width r).isSome = false := by
      unfold optimal_width checkedNextPowerOfTwo
      rw [if_neg (by omega)]
      rfl
    rw [new_panicked_of_gt cmax r kf hk (by omega), hemem, hw]
    exact ⟨rfl, rfl, rfl, rfl⟩

/-- C1: for every validly constructed sketch and every key, after any sequence
of `add` calls in which no counter saturates, `estimate` of the key is at
least the number of single-unit increments (`add` with amount 1, i.e.
`increment`) of that key in the sequence: conservative update may
overestimate but never underestimates. -/
theorem estimate_never_underestimates (cmax r kf : Nat) (hk : Hashers) (s0 : Sketch)
    (ops : List (HashPair × Nat)) (key : HashPair)
    (hnew : new cmax r kf hk = .ok s0) (hns : runNoSat s0 ops = true) :
    countUnit key ops ≤ estimate (runAdds s0 ops) key := by
  have hwf := wf_new cmax r kf hk s0 hnew
  have h0 : estimate s0 key = 0 :=
    estimate_of_zero s0 hwf.knum_ge (new_getCell cmax r kf hk s0 hnew) key
  have hrun := runAdds_lower ops s0 hwf hns key
  omega

/-- Witness for C1: a fresh width-4, 2-row sketch, two unit increments of
`hW` and one 5-unit add of `hW2`, nothing saturates. -/
theorem estimate_never_underestimates_witness :
    (new 255 3 2 hkW = RunResult.ok s0W ∧ runNoSat s0W opsC1 = true) ∧
    countUnit hW opsC1 ≤ estimate (runAdds s0W opsC1) hW :=
  ⟨⟨by decide, by decide⟩,
   estimate_never_underestimates 255 3 2 hkW s0W opsC1 hW (by decide) (by decide)⟩

/-- C4: `add key v` first computes the minimum `lowest` over the `k_num`
counters addressed by the key's offsets (the value `lowestOf`, which is a
lower bound of all the addressed counters and is attained by one of them),
then adds `v` with saturation exactly to those addressed counters whose value
equals `lowest`; every other cell — an addressed counter above the minimum or
any cell not addressed by the key — is left unchanged. -/
theorem add_conservative_update (s : Sketch) (h : HashPair) (v : Nat) (hwf : WF s) :
    ((∀ i, i < s.k_num → lowestOf s h ≤ getCell s i (offset s.mask h i)) ∧
     (∃ i, i < s.k_num ∧ lowestOf s h = getCell s i (offset s.mask h i))) ∧
    (∀ i j, getCell (add s h v) i j =
      if i < s.k_num ∧ j = offset s.mask h i ∧ getCell s i j = lowestOf s h then
        satAdd s.cmax (getCell s i j) v
      else getCell s i j) :=
  ⟨⟨fun i hi => lowestOf_le_cell s h hwf.knum_ge i hi, lowestOf_attained s h hwf.knum_ge⟩,
   fun i j => add_getCell s h v hwf i j⟩

/-- Witness for C4 at the concrete state `sW`, key `hW`, amount 10, cell
(0, 2) — the addressed minimum cell of row 0. -/
theorem add_conservative_update_witness :
    WF sW ∧
    lowestOf sW hW ≤ getCell sW 0 (offset sW.mask hW 0) ∧
    getCell (add sW hW 10) 0 2 =
      (if 0 < sW.k_num ∧ 2 = offset sW.mask hW 0 ∧ getCell sW 0 2 = lowestOf sW hW then
        satAdd sW.cmax (getCell sW 0 2) 10
      else getCell sW 0 2) :=
  ⟨wf_sW,
   (add_conservative_update sW hW 10 wf_sW).1.1 0 (by decide),
   (add_conservative_update sW hW 10 wf_sW).2 0 2⟩

/-- C5: starting from any constructed sketch, after any sequence of
operations no counter cell exceeds the counter maximum and `estimate` never
exceeds it (saturating adds never wrap); moreover `n` increments of a single
key from the fresh state give `estimate = min n cmax`, so exceeding the
maximum caps the estimate exactly at the maximum. -/
theorem counters_saturate_never_wrap (cmax r kf : Nat) (hk : Hashers) (s0 : Sketch)
    (hnew : new cmax r kf hk = .ok s0) :
    (∀ ops : List Op, (∀ i j, getCell (runOps s0 ops) i j ≤ cmax) ∧
      (∀ h, estimate (runOps s0 ops) h ≤ cmax)) ∧
    (∀ h n, estimate ((fun s => increment s h)^[n] s0) h = min n cmax) := by
  have hwf := wf_new cmax r kf hk s0 hnew
  have hcmax : s0.cmax = cmax := by
    rcases new_ok_inv cmax r kf hk s0 hnew with ⟨_, rfl⟩
    rfl
  constructor
  · intro ops
    have hwfr := wf_runOps ops s0 hwf
    have hcm : (runOps s0 ops).cmax = cmax := by
      rw [(runOps_mask_k_num ops s0).2.2, hcmax]
    constructor
    · intro i j
      have := getCell_le _ hwfr i j
      rw [hcm] at this
      exact this
    · intro h
      rcases lowestOf_attained (runOps s0 ops) h hwfr.knum_ge with ⟨i0, _, hval⟩
      rw [estimate_eq_lowestOf, hval, ← hcm]
      exact getCell_le _ hwfr i0 _
  · intro h n
    have := estimate_iter_incr h n s0 hwf (new_getCell cmax r kf hk s0 hnew)
    rw [hcmax] at this
    exact this

/-- Witness for C5: the spec's scenario 1 — the 8-bit variant sized for
capacity 100, probability 0.95, tolerance 10.0 (`s8W`), 300 increments of one
key: the estimate is `min 300 255 = 255`. -/
theorem counters_saturate_never_wrap_witness :
    new 255 20 4 hkW = RunResult.ok s8W ∧
    estimate ((fun s => increment s hW)^[300] s8W) hW = min 300 255 ∧
    min 300 255 = 255 :=
  ⟨by decide,
   (counters_saturate_never_wrap 255 20 4 hkW s8W (by decide)).2 hW 300,
   by decide⟩

/-- C6: `estimate` uses exactly the `k_num` offsets that `add` records in the
`offsets` buffer for the same key, and returns the minimum counter value over
them; the embedding types `estimate` as `Sketch → Nat` — a `&self` read that
produces no new state, mutating neither counters, nor the cached offsets,
hash state or decay cursor. -/
theorem estimate_same_offsets_min (s : Sketch) (h : HashPair) (v : Nat) (hwf : WF s) :
    (add s h v).offsets = (List.range s.k_num).map (offset s.mask h) ∧
    estimate s h = (iterMin ((List.range s.k_num).map
      (fun i => getCell s i ((add s h v).offsets.getD i 0)))).getD 0 := by
  have hofeq := add_offsets_eq s h v hwf
  refine ⟨hofeq, ?_⟩
  have hmap : (List.range s.k_num).map (fun k_i => getCell s k_i (offset s.mask h k_i)) =
      (List.range s.k_num).map (fun i => getCell s i ((add s h v).offsets.getD i 0)) := by
    apply List.map_congr_left
    intro i hi
    rw [add_offsets_getD s h v (le_of_eq hwf.offsets_len.symm) i,
      if_pos (List.mem_range.mp hi)]
  show (iterMin ((List.range s.k_num).map
    (fun k_i => getCell s k_i (offset s.mask h k_i)))).getD 0 = _
  rw [hmap]

/-- Witness for C6 at the concrete state `sW` and key `hW`. -/
theorem estimate_same_offsets_min_witness :
    WF sW ∧
    (add sW hW 7).offsets = (List.range sW.k_num).map (offset sW.mask hW) ∧
    estimate sW hW = (iterMin ((List.range sW.k_num).map
      (fun i => getCell sW i ((add sW hW 7).offsets.getD i 0)))).getD 0 :=
  ⟨wf_sW,
   (estimate_same_offsets_min sW hW 7 wf_sW).1,
   (estimate_same_offsets_min sW hW 7 wf_sW).2⟩

/-- C7: applying `reset_next` exactly `width` times (from any well-formed
state, wherever the cursor stands) yields the same counter matrix as one
`reset` call; each individual `reset_next` halves exactly the counters of the
single column at the decay cursor across all rows, advances the cursor by one
modulo `width`, and returns the new cursor position, or `none` exactly when
the cursor wrapped back to the start. -/
theorem reset_next_sweep_equals_reset (s : Sketch) (hwf : WF s) :
    (resetNextState^[s.mask + 1] s).counters = (reset s).counters ∧
    (∀ i j, getCell (reset_next s).1 i j =
      if i < s.k_num ∧ j = s.reset_idx then getCell s i j / 2 else getCell s i j) ∧
    (reset_next s).1.reset_idx = (s.reset_idx + 1) % (s.mask + 1) ∧
    (reset_next s).2 = (if (s.reset_idx + 1) % (s.mask + 1) ≠ 0 then
      some ((s.reset_idx + 1) % (s.mask + 1)) else none) :=
  ⟨iter_rn_full_counters s hwf, reset_next_getCell s hwf,
   reset_next_reset_idx s hwf, reset_next_snd s hwf⟩

/-- Witness for C7 at the concrete state `sW` (width 4, cursor at 1). -/
theorem reset_next_sweep_equals_reset_witness :
    WF sW ∧
    (resetNextState^[sW.mask + 1] sW).counters = (reset sW).counters ∧
    getCell (reset_next sW).1 0 1 =
      (if 0 < sW.k_num ∧ 1 = sW.reset_idx then getCell sW 0 1 / 2 else getCell sW 0 1) ∧
    (reset_next sW).2 = (if (sW.reset_idx + 1) % (sW.mask + 1) ≠ 0 then
      some ((sW.reset_idx + 1) % (sW.mask + 1)) else none) :=
  ⟨wf_sW,
   (reset_next_sweep_equals_reset sW wf_sW).1,
   (reset_next_sweep_equals_reset sW wf_sW).2.1 0 1,
   (reset_next_sweep_equals_reset sW wf_sW).2.2.2⟩

/-- C8: `reset` replaces every counter `v` by `v / 2` (integer division),
resets the decay cursor to zero, and changes nothing else: hasher keys, mask,
row count, the cached offsets buffer and the counter bound are untouched, so
every key maps to the identical offsets before and after the call. -/
theorem reset_halves_preserves_frame (s : Sketch) (hwf : WF s) :
    (reset s).counters = s.counters.map (List.map (fun c => c / 2)) ∧
    (reset s).reset_idx = 0 ∧
    (reset s).hashers = s.hashers ∧
    (reset s).mask = s.mask ∧
    (reset s).k_num = s.k_num ∧
    (reset s).offsets = s.offsets ∧
    (reset s).cmax = s.cmax ∧
    (∀ h k_i, offset (reset s).mask h k_i = offset s.mask h k_i) :=
  ⟨reset_counters_eq s hwf, rfl, rfl, rfl, rfl, rfl, rfl, fun _ _ => rfl⟩

/-- Witness for C8 at the concrete state `sW` and key `hW`. -/
theorem reset_halves_preserves_frame_witness :
    WF sW ∧
    (reset sW).counters = sW.counters.map (List.map (fun c => c / 2)) ∧
    (reset sW).reset_idx = 0 ∧
    (reset sW).hashers = sW.hashers ∧
    offset (reset sW).mask hW 5 = offset sW.mask hW 5 :=
  ⟨wf_sW,
   (reset_halves_preserves_frame sW wf_sW).1,
   (reset_halves_preserves_frame sW wf_sW).2.1,
   (reset_halves_preserves_frame sW wf_sW).2.2.1,
   (reset_halves_preserves_frame sW wf_sW).2.2.2.2.2.2.2 hW 5⟩

end CMSketch
